import Mathlib

/-!
Verification of the edge-graph visualization (src/src/edgeGraph.js) against its
natural-language specification.  The JavaScript is shallowly embedded: each
relevant method of the EdgeGraph class becomes a Lean function over explicit
state; node objects are identified by their index in the node list, JavaScript
numbers are rationals (with an explicit NaN/Infinity-carrying type where the
code can produce such values), and absent properties are `Option.none`.
-/

namespace EdgeGraphJs

/-! ### Bidirectional-pair scan (processData, lines 133-146; drawLink, line 211)

A link as it takes part in the pair scan: both endpoints resolved, identified
by their node ids (`link.source.id` / `link.target.id`). -/

structure RLink where
  sourceId : Nat
  targetId : Nat
deriving DecidableEq

/-- The test `link1.source.id === link2.target.id && link1.target.id === link2.source.id`
from processData. -/
def isRev (a b : RLink) : Bool :=
  a.sourceId == b.targetId && a.targetId == b.sourceId

/-- `isRev` applied to the links at positions `i` and `j` of the link list
(false when either index is out of range; the scan never reads out of range). -/
def revAt (L : List RLink) (i j : Nat) : Bool :=
  match L[i]?, L[j]? with
  | some a, some b => isRev a b
  | _, _ => false

/-- The inner loop of the scan: the first `j > i` whose link is the reverse of
link `i` (the loop `for (let j = i + 1; ...)` with `break` on the first hit). -/
def firstRevAfter (L : List RLink) (i : Nat) : Option Nat :=
  (List.range L.length).find? (fun j => decide (i < j) && revAt L i j)

/-- State of `this.bidirectionalPairs` after the outer loop has processed the
link indices `0, ..., n-1` in order.  Map keys are link positions (standing for
the link object identities used as `Map` keys in the source); each hit does
`set(link1, link2); set(link2, link1)`, a later `set` overwriting an earlier
one, exactly as in a JavaScript `Map`. -/
def pairsUpTo (L : List RLink) : Nat → Nat → Option Nat
  | 0 => fun _ => none
  | n + 1 =>
    let m := pairsUpTo L n
    match firstRevAfter L n with
    | some j => fun k => if k = j then some n else if k = n then some j else m k
    | none => m

/-- `this.bidirectionalPairs` after the full scan of processData. -/
def bidirectionalPairs (L : List RLink) : Nat → Option Nat :=
  pairsUpTo L L.length

/-- `getBidirectionalPair` is a plain lookup in the precomputed map. -/
def getBidirectionalPair (L : List RLink) (i : Nat) : Option Nat :=
  bidirectionalPairs L i

/-- In drawLink, a paired link is skipped (`return`) when
`link.source.id > link.target.id`; otherwise it is drawn as the forward edge. -/
def isForwardEdge (l : RLink) : Bool :=
  decide (l.sourceId ≤ l.targetId)

/-- Each link has at most one reverse partner among the other links.  Under
this hypothesis the scan's map is symmetric (claim C1 amended). -/
def uniquePartners (L : List RLink) : Prop :=
  ∀ i ∈ List.range L.length, ∀ j ∈ List.range L.length, ∀ k ∈ List.range L.length,
    i ≠ j → i ≠ k → revAt L i j = true → revAt L i k = true → j = k

instance (L : List RLink) : Decidable (uniquePartners L) := by
  unfold uniquePartners; infer_instance

/-- Three links where the middle one is the reverse of both others: the scan
first pairs link 0 with link 1, then overwrites link 1 to point at link 2. -/
def c1CexLinks : List RLink := [⟨0, 1⟩, ⟨1, 0⟩, ⟨0, 1⟩]

/-- Two links forming one clean reverse pair, for the witness below. -/
def c1WitLinks : List RLink := [⟨5, 9⟩, ⟨9, 5⟩]

/-! ### wrapText (lines 532-549)

Strings are modelled as lists of characters.  `splitSp` is JavaScript
`text.split(' ')` (split at every single space; `''.split(' ')` gives `['']`),
and `joinSp` joins pieces with single spaces, as `currentLine + " " + word`
does.  The measurer `this.ctx.measureText(s).width` is an arbitrary function
parameter `f`. -/

/-- `text.split(' ')`. -/
def splitSp : List Char → List (List Char)
  | [] => [[]]
  | c :: cs =>
    if c = ' ' then [] :: splitSp cs
    else
      match splitSp cs with
      | [] => [[c]]
      | w :: ws => (c :: w) :: ws

/-- Joining pieces with single spaces (the way wrapText builds lines). -/
def joinSp : List (List Char) → List Char
  | [] => []
  | [w] => w
  | w :: ws => w ++ ' ' :: joinSp ws

/-- The loop of wrapText: `current` starts as `words[0]`, each further word is
appended when `measureText(current + " " + word).width < maxWidth`, otherwise
`current` is pushed and the word starts a new line; the last line is pushed at
the end. -/
def wrapAux (f : List Char → ℚ) (mw : ℚ) : List (List Char) → List Char → List (List Char)
  | [], current => [current]
  | w :: ws, current =>
    if f (current ++ ' ' :: w) < mw then wrapAux f mw ws (current ++ ' ' :: w)
    else current :: wrapAux f mw ws w

/-- `wrapText(text, maxWidth)`.  `split(' ')` never returns an empty array, so
the `[]` arm is unreachable. -/
def wrapText (f : List Char → ℚ) (text : List Char) (mw : ℚ) : List (List Char) :=
  match splitSp text with
  | [] => []
  | w :: ws => wrapAux f mw ws w

/-- Invariant of lines produced by the wrap loop: the line is a space-join of
space-free words and rewrapping exactly that word sequence reproduces it. -/
def PGoodLine (f : List Char → ℚ) (mw : ℚ) (cur : List Char) : Prop :=
  ∃ p0 ps, (' ' ∉ p0) ∧ (∀ p ∈ ps, ' ' ∉ p) ∧ cur = joinSp (p0 :: ps) ∧
    wrapAux f mw ps p0 = [cur]

/-! ### computeNodeHierarchy (lines 860-960)

The state after processData, as computeNodeHierarchy sees it: node objects are
positions `Fin n` into `this.nodes`, each carrying an id; `this.links` holds
endpoint object references, `none` standing for an `undefined` endpoint of an
edge whose id did not resolve.  Levels live in an explicit map
`Fin n → Option ℤ` (`none` = the `undefined` written at initialization). -/

structure HGraph where
  n : ℕ
  idOf : Fin n → ℕ
  links : List (Option (Fin n) × Option (Fin n))

/-- One link of the degree-counting pass (lines 871-883): a link whose two
endpoints are resolved objects bumps `childCount` of its source and
`parentCount` of its target; any other link is skipped. -/
def degreeStep (n : ℕ) (d : (Fin n → ℕ) × (Fin n → ℕ))
    (l : Option (Fin n) × Option (Fin n)) : (Fin n → ℕ) × (Fin n → ℕ) :=
  match l.1, l.2 with
  | some s, some t =>
    (Function.update d.1 s (d.1 s + 1), Function.update d.2 t (d.2 t + 1))
  | _, _ => d

/-- `(childCount, parentCount)` of every node after the counting pass; both
start at 0 for every node. -/
def degrees (g : HGraph) : (Fin g.n → ℕ) × (Fin g.n → ℕ) :=
  g.links.foldl (degreeStep g.n) (fun _ => 0, fun _ => 0)

/-- Root selection (lines 885-892): the nodes with `parentCount === 0`, in node
order; when there are none, the nodes whose `parentCount` equals the minimum
(`Math.min` over all nodes). -/
def rootIdxs (g : HGraph) : List (Fin g.n) :=
  if ((List.finRange g.n).filter (fun i => (degrees g).2 i == 0)).isEmpty then
    match (List.finRange g.n).map (degrees g).2 with
    | [] => []
    | x :: xs => (List.finRange g.n).filter (fun i => (degrees g).2 i == xs.foldl min x)
  else (List.finRange g.n).filter (fun i => (degrees g).2 i == 0)

/-- Levels right after `rootNodes.forEach(node => { node.level = 0; })`. -/
def initLevels (g : HGraph) : Fin g.n → Option ℤ :=
  fun i => if i ∈ rootIdxs g then some 0 else none

/-- `level || 0` (an undefined level counts as 0; a stored 0 also yields 0). -/
def levelOrZero (l : Option ℤ) : ℤ :=
  match l with
  | some v => v
  | none => 0

/-- The `childNodes` collected for the dequeued node (lines 907-914): for every
link whose resolved source has the current node's id, the link's target
reference is pushed (possibly `undefined`). -/
def childTargets (g : HGraph) (curId : ℕ) : List (Option (Fin g.n)) :=
  (g.links.filter (fun l =>
    match l.1 with
    | some s => g.idOf s == curId
    | none => false)).map (fun l => l.2)

/-- Processing of `childNodes` (lines 917-923): a defined child whose id is not
yet visited gets level `(currentNode.level || 0) + 1`, is marked visited (by
id) and appended to the queue. -/
def bfsChildFold (g : HGraph) (cur : Fin g.n) :
    List (Option (Fin g.n)) → (Fin g.n → Option ℤ) → List ℕ → List (Fin g.n) →
    ((Fin g.n → Option ℤ) × List ℕ × List (Fin g.n))
  | [], lv, vis, newQ => (lv, vis, newQ)
  | c :: cs, lv, vis, newQ =>
    match c with
    | none => bfsChildFold g cur cs lv vis newQ
    | some cn =>
      if g.idOf cn ∈ vis then bfsChildFold g cur cs lv vis newQ
      else
        bfsChildFold g cur cs
          (Function.update lv cn (some (levelOrZero (lv cur) + 1)))
          (g.idOf cn :: vis) (newQ ++ [cn])

/-- The breadth-first traversal (lines 899-924): dequeue from the front,
process the children, continue until the queue is empty.  The fuel bounds the
number of dequeues; every dequeue matches one earlier enqueue and at most
`g.n` initial roots plus `g.n` newly visited nodes are ever enqueued, so fuel
`2 * g.n + 1` is never exhausted before the queue empties. -/
def bfsLoop (g : HGraph) :
    ℕ → (Fin g.n → Option ℤ) → List ℕ → List (Fin g.n) → (Fin g.n → Option ℤ)
  | 0, lv, _, _ => lv
  | fuel + 1, lv, vis, q =>
    match q with
    | [] => lv
    | cur :: rest =>
      let r := bfsChildFold g cur (childTargets g (g.idOf cur)) lv vis []
      bfsLoop g fuel r.1 r.2.1 (rest ++ r.2.2)

/-- The level map after the breadth-first phase of computeNodeHierarchy. -/
def bfsLevels (g : HGraph) : Fin g.n → Option ℤ :=
  bfsLoop g (2 * g.n + 1) (initLevels g) ((rootIdxs g).map g.idOf) (rootIdxs g)

/-- `if (target && target.level !== undefined) connectedNodes.push(target)`:
the level contributed by one (possibly undefined) endpoint reference
(`n.level || 0` in the later sum equals the stored level). -/
def pushIfLeveled {n : ℕ} (lv : Fin n → Option ℤ) (t : Option (Fin n)) : List ℤ :=
  match t with
  | some tn =>
    match lv tn with
    | some v => [v]
    | none => []
  | none => []

/-- What one link pushes into `connectedNodes` for `node` in the fallback pass
(lines 930-948): the target's level when the link's resolved source has the
node's id and the target is resolved and leveled, then symmetrically the
source's level. -/
def linkContrib (g : HGraph) (lv : Fin g.n → Option ℤ) (node : Fin g.n)
    (l : Option (Fin g.n) × Option (Fin g.n)) : List ℤ :=
  (match l.1 with
   | some s => if g.idOf s == g.idOf node then pushIfLeveled lv l.2 else []
   | none => []) ++
  (match l.2 with
   | some t => if g.idOf t == g.idOf node then pushIfLeveled lv l.1 else []
   | none => [])

/-- The `connectedNodes` levels for `node`, in link order. -/
def connectedLeveled (g : HGraph) (lv : Fin g.n → Option ℤ) (node : Fin g.n) :
    List ℤ :=
  g.links.foldl (fun acc l => acc ++ linkContrib g lv node l) []

/-- The level the fallback assigns (lines 950-957):
`Math.floor(average) + 1` over the collected levels, or 0 when none were
collected (`Int.fdiv` is floor division, matching `Math.floor` of the exact
quotient). -/
def fallbackValue (g : HGraph) (lv : Fin g.n → Option ℤ) (node : Fin g.n) : ℤ :=
  if (connectedLeveled g lv node).isEmpty then 0
  else
    Int.fdiv ((connectedLeveled g lv node).foldl (· + ·) 0)
      ((connectedLeveled g lv node).length : ℤ) + 1

/-- One node of the final `this.nodes.forEach` (lines 927-959): nothing happens
when the node already has a level, otherwise the fallback value computed in the
current state is assigned. -/
def fallbackStep (g : HGraph) (lv : Fin g.n → Option ℤ) (i : Fin g.n) :
    Fin g.n → Option ℤ :=
  match lv i with
  | some _ => lv
  | none => Function.update lv i (some (fallbackValue g lv i))

/-- The level map after computeNodeHierarchy has run completely. -/
def computeNodeHierarchy (g : HGraph) : Fin g.n → Option ℤ :=
  (List.finRange g.n).foldl (fallbackStep g) (bfsLevels g)

/-- The level map at the moment the final pass reaches node `i` (the pass has
processed exactly the nodes before `i` in node order). -/
def fallbackUpTo (g : HGraph) (i : Fin g.n) : Fin g.n → Option ℤ :=
  ((List.finRange g.n).take i.val).foldl (fallbackStep g) (bfsLevels g)

/-- No link references the node, in either endpoint. -/
def isolatedNode (g : HGraph) (i : Fin g.n) : Prop :=
  ∀ l ∈ g.links, l.1 ≠ some i ∧ l.2 ≠ some i

instance (g : HGraph) (i : Fin g.n) : Decidable (isolatedNode g i) := by
  unfold isolatedNode; infer_instance

/-- A 3-cycle (node ids 1, 2, 3) plus an isolated node (id 4). -/
def c2WitGraph : HGraph :=
  ⟨4, fun i => (i : ℕ) + 1,
   [(some 0, some 1), (some 1, some 2), (some 2, some 0)]⟩

/-! ### processData (lines 108-150), drawLink guard (line 186) and
getLinkDistance (lines 1182-1218)

Input documents and the state built from them.  Absent JavaScript properties
are `none`; reading `.id` off an `undefined` endpoint raises a TypeError,
modelled in the `Except` monad and caught by processData's try/catch. -/

structure InNode where
  id : ℕ
  label : String
  ptype : Option String
deriving DecidableEq

structure InEdge where
  source_node_id : ℕ
  target_node_id : ℕ
  relationship_name : String
deriving DecidableEq

structure InData where
  nodes : List InNode
  edges : List InEdge
  colors : List (String × String)
deriving DecidableEq

/-- A processed node object: `x`, `y` and `level` start `undefined`. -/
structure HNode where
  id : ℕ
  label : String
  ptype : Option String
  color : String
  x : Option ℚ
  y : Option ℚ
  level : Option ℤ
deriving DecidableEq

/-- `data.colors[node.properties.type] || '#999999'` (a missing type, a missing
entry, and an empty — falsy — color string all fall back to the default). -/
def colorFor (colors : List (String × String)) (t : Option String) : String :=
  match t with
  | some ty =>
    match colors.lookup ty with
    | some c => if c = "" then "#999999" else c
    | none => "#999999"
  | none => "#999999"

/-- One node of `data.nodes.map(...)` (lines 116-123). -/
def mkNode (colors : List (String × String)) (nd : InNode) : HNode :=
  ⟨nd.id, nd.label, nd.ptype, colorFor colors nd.ptype, none, none, none⟩

/-- A processed link: endpoint object references (undefined when the id did not
resolve) and the relationship name stored under `relationship`.  The object has
no `relationship_name` property. -/
structure PLink where
  source : Option HNode
  target : Option HNode
  relationship : String
deriving DecidableEq

/-- `this.nodes.find(n => n.id === edge.source_node_id)`. -/
def resolveNode (ns : List HNode) (nid : ℕ) : Option HNode :=
  ns.find? (fun nd => nd.id == nid)

/-- The edge mapping of processData (lines 126-131): a map, not a filter —
every input edge yields a link. -/
def processLinks (ns : List HNode) (es : List InEdge) : List PLink :=
  es.map (fun e =>
    ⟨resolveNode ns e.source_node_id, resolveNode ns e.target_node_id,
     e.relationship_name⟩)

/-- Reading `.id` off an endpoint: a TypeError when it is `undefined`. -/
def getIdE : Option HNode → Except Unit ℕ
  | some nd => Except.ok nd.id
  | none => Except.error ()

/-- The pair test of the scan (line 140) with JavaScript evaluation order:
`&&` short-circuits, so `link1.target.id` and `link2.source.id` are only read
when the first comparison succeeds. -/
def checkRevPairE (a b : PLink) : Except Unit Bool := do
  let s1 ← getIdE a.source
  let t2 ← getIdE b.target
  if s1 = t2 then do
    let t1 ← getIdE a.target
    let s2 ← getIdE b.source
    pure (t1 = s2)
  else pure false

/-- Inner loop of the scan over `j = i+1, ...`: inserts the two map entries and
breaks on the first reverse match; returns the map and whether a TypeError was
thrown. -/
def scanInner (L : List PLink) (i : ℕ) :
    List ℕ → (ℕ → Option ℕ) → ((ℕ → Option ℕ) × Bool)
  | [], m => (m, false)
  | j :: js, m =>
    match L[i]?, L[j]? with
    | some a, some b =>
      match checkRevPairE a b with
      | Except.error _ => (m, true)
      | Except.ok true =>
        ((fun k => if k = j then some i else if k = i then some j else m k), false)
      | Except.ok false => scanInner L i js m
    | _, _ => scanInner L i js m

/-- Outer loop of the scan; a thrown TypeError aborts the whole loop, keeping
the entries inserted so far (the catch block only logs the error). -/
def scanOuter (L : List PLink) :
    List ℕ → (ℕ → Option ℕ) → ((ℕ → Option ℕ) × Bool)
  | [], m => (m, false)
  | i :: is, m =>
    match scanInner L i ((List.range L.length).filter (fun j => i < j)) m with
    | (m2, true) => (m2, true)
    | (m2, false) => scanOuter L is m2

structure GraphState where
  nodes : List HNode
  links : List PLink
  pairs : ℕ → Option ℕ
  pairScanAborted : Bool

/-- processData (lines 108-150) on a well-formed document: nodes mapped first,
then links (dangling ids resolve to `undefined` endpoints, nothing is
dropped), then the pair scan runs inside the try/catch. -/
def processData (d : InData) : GraphState :=
  let ns := d.nodes.map (mkNode d.colors)
  let ls := processLinks ns d.edges
  let pr := scanOuter ls (List.range ls.length) (fun _ => none)
  ⟨ns, ls, pr.1, pr.2⟩

/-- The guard of drawLink (lines 186-187): a link is only rendered when both
endpoints are objects and all four coordinates are non-null. -/
def drawLinkEnters (l : PLink) : Bool :=
  match l.source, l.target with
  | some s, some t => s.x.isSome && s.y.isSome && t.x.isSome && t.y.isSome
  | _, _ => false

/-- `sourceType && targetType && sourceType !== targetType` is truthy only for
two present, non-empty, different type strings. -/
def jsTruthyS : Option String → Bool
  | some s => s != ""
  | none => false

/-- getLinkDistance (lines 1182-1218), taking the two endpoint node objects and
the value of `link.relationship_name`.  Ingested links store the name under
`relationship` instead, so for them that property reads as `undefined`
(see `getLinkDistanceIngested`). -/
def getLinkDistance (src tgt : HNode) (relName : Option String) : ℤ :=
  500
  + (match src.ptype, tgt.ptype with
     | some s, some t => if s ≠ "" ∧ t ≠ "" ∧ s ≠ t then 150 else 0
     | _, _ => 0)
  + (if levelOrZero src.level ≠ levelOrZero tgt.level then
       |levelOrZero src.level - levelOrZero tgt.level| * 200
     else 0)
  + (match relName with
     | some r =>
       if r ≠ "" then
         (if r = "ACTED_IN" ∨ r = "DIRECTED" ∨ r = "PART_OF" then -100 else 0)
         + (if r = "WORKED_WITH" ∨ r = "FREQUENT_COLLABORATOR" then 150 else 0)
       else 0
     | none => 0)

/-- getLinkDistance as invoked on an ingested link: `link.relationship_name`
is `undefined` (the name sits in `.relationship`); an unresolved endpoint would
throw in the source (`none` here). -/
def getLinkDistanceIngested (l : PLink) : Option ℤ :=
  match l.source, l.target with
  | some s, some t => some (getLinkDistance s t none)
  | _, _ => none

/-- The distance formula as claim C5 words it (for comparison with the code):
base 500, +150 for differing types, +200·|Δlevel|, −100 for a primary
relationship name, +150 for a secondary one. -/
def c5ClaimedDistance (src tgt : HNode) (rel : String) : ℤ :=
  500 + (if src.ptype ≠ tgt.ptype then 150 else 0)
  + (if levelOrZero src.level ≠ levelOrZero tgt.level then
       |levelOrZero src.level - levelOrZero tgt.level| * 200
     else 0)
  + (if rel = "ACTED_IN" ∨ rel = "DIRECTED" ∨ rel = "PART_OF" then -100 else 0)
  + (if rel = "WORKED_WITH" ∨ rel = "FREQUENT_COLLABORATOR" then 150 else 0)

/-- One node, one edge pointing at a non-existent id 2. -/
def c3Data : InData := ⟨[⟨1, "A", none⟩], [⟨1, 2, "REL"⟩], []⟩

/-- Two same-type nodes joined by an ACTED_IN edge. -/
def c5Data : InData :=
  ⟨[⟨1, "A", some "Person"⟩, ⟨2, "B", some "Person"⟩], [⟨1, 2, "ACTED_IN"⟩],
   [("Person", "#ff0000")]⟩

def c5NodeA : HNode := ⟨1, "A", some "Person", "#ff0000", none, none, none⟩

def c5NodeB : HNode := ⟨2, "B", some "Person", "#ff0000", none, none, none⟩

/-! ### createTypeClusterForce (lines 963-1035)

JavaScript distinguishes `undefined` and `null`; `fx`/`fy` of a never-pinned
node are `undefined`, and `undefined !== null` is true. -/

inductive JsVal where
  | undef : JsVal
  | null : JsVal
  | num : ℚ → JsVal
deriving DecidableEq

structure FNode where
  x : ℚ
  y : ℚ
  vx : JsVal
  vy : JsVal
  fx : JsVal
  fy : JsVal
deriving DecidableEq

/-- `node.vx || 0`. -/
def jsOrZero : JsVal → ℚ
  | JsVal.num q => q
  | _ => 0

/-- The per-node body of the force returned by createTypeClusterForce (lines
1023-1030), applied with the node's (level, type) bucket center: the node is
skipped when `node.fx !== null || node.fy !== null` — true in particular when
`fx` and `fy` are `undefined` — otherwise the velocity gains
`(center − position) * strength * alpha` with horizontal strength `0.2 * alpha`
and vertical strength `0.4 * alpha`. -/
def typeClusterForceOnNode (center : ℚ × ℚ) (alpha : ℚ) (node : FNode) : FNode :=
  if node.fx ≠ JsVal.null ∨ node.fy ≠ JsVal.null then node
  else
    { node with
      vx := JsVal.num (jsOrZero node.vx + (center.1 - node.x) * (1/5 * alpha)),
      vy := JsVal.num (jsOrZero node.vy + (center.2 - node.y) * (2/5 * alpha)) }

/-- A never-dragged node at the origin: `fx` and `fy` are `undefined`. -/
def c4Node : FNode := ⟨0, 0, JsVal.num 0, JsVal.num 0, JsVal.undef, JsVal.undef⟩

/-! ### fitViewToContent (lines 581-658) -/

structure Bounds where
  minX : ℚ
  maxX : ℚ
  minY : ℚ
  maxY : ℚ
deriving DecidableEq

/-- The min/max folding of the bounding box (lines 588-598), every node
inflated by `nodeRadius * 8 = 640`.  The source starts the fold at ±Infinity;
for a non-empty list that equals starting from the first node's box. -/
def fitBoundsAux (r : ℚ) (ps : List (ℚ × ℚ)) (b : Bounds) : Bounds :=
  ps.foldl
    (fun b q =>
      ⟨min b.minX (q.1 - r), max b.maxX (q.1 + r),
       min b.minY (q.2 - r), max b.maxY (q.2 + r)⟩) b

def fitBoundsOf (ps : List (ℚ × ℚ)) : Bounds :=
  match ps with
  | [] => ⟨0, 0, 0, 0⟩
  | p :: rest => fitBoundsAux 640 rest ⟨p.1 - 640, p.1 + 640, p.2 - 640, p.2 + 640⟩

/-- `scale = Math.min(0.15, width*0.85/graphWidth, height*0.85/graphHeight)`
(lines 609-616). -/
def fitScale (w h : ℚ) (ps : List (ℚ × ℚ)) : ℚ :=
  min (3/20)
    (min (w * (17/20) / ((fitBoundsOf ps).maxX - (fitBoundsOf ps).minX))
         (h * (17/20) / ((fitBoundsOf ps).maxY - (fitBoundsOf ps).minY)))

/-- fitViewToContent reduced to the transform `(scale, tx, ty)` it computes and
applies (through a fresh unconstrained `d3.zoom()`, so no clamping to the zoom
extent anywhere); `none` is the early return for an empty node list. -/
def fitViewToContent (w h : ℚ) (ps : List (ℚ × ℚ)) : Option (ℚ × ℚ × ℚ) :=
  match ps with
  | [] => none
  | _ :: _ =>
    some (fitScale w h ps,
      w / 2 - (((fitBoundsOf ps).minX + (fitBoundsOf ps).maxX) / 2) * fitScale w h ps,
      h / 2 - (((fitBoundsOf ps).minY + (fitBoundsOf ps).maxY) / 2) * fitScale w h ps)

/-! ### resolveOverlaps (lines 819-857)

JavaScript numbers including NaN and the infinities, with IEEE propagation
rules for the operations resolveOverlaps uses; `Math.sqrt` is a function
parameter (its value on 0 and NaN is all the concrete runs below need). -/

inductive JNum where
  | nan : JNum
  | inf : JNum
  | ninf : JNum
  | num : ℚ → JNum
deriving DecidableEq

def jneg : JNum → JNum
  | JNum.nan => JNum.nan
  | JNum.inf => JNum.ninf
  | JNum.ninf => JNum.inf
  | JNum.num q => JNum.num (-q)

def jadd : JNum → JNum → JNum
  | JNum.nan, _ => JNum.nan
  | _, JNum.nan => JNum.nan
  | JNum.inf, JNum.ninf => JNum.nan
  | JNum.ninf, JNum.inf => JNum.nan
  | JNum.inf, _ => JNum.inf
  | _, JNum.inf => JNum.inf
  | JNum.ninf, _ => JNum.ninf
  | _, JNum.ninf => JNum.ninf
  | JNum.num a, JNum.num b => JNum.num (a + b)

def jsub (a b : JNum) : JNum := jadd a (jneg b)

def jmul : JNum → JNum → JNum
  | JNum.nan, _ => JNum.nan
  | _, JNum.nan => JNum.nan
  | JNum.inf, JNum.inf => JNum.inf
  | JNum.inf, JNum.ninf => JNum.ninf
  | JNum.ninf, JNum.inf => JNum.ninf
  | JNum.ninf, JNum.ninf => JNum.inf
  | JNum.inf, JNum.num q => if q = 0 then JNum.nan else if 0 < q then JNum.inf else JNum.ninf
  | JNum.num q, JNum.inf => if q = 0 then JNum.nan else if 0 < q then JNum.inf else JNum.ninf
  | JNum.ninf, JNum.num q => if q = 0 then JNum.nan else if 0 < q then JNum.ninf else JNum.inf
  | JNum.num q, JNum.ninf => if q = 0 then JNum.nan else if 0 < q then JNum.ninf else JNum.inf
  | JNum.num a, JNum.num b => JNum.num (a * b)

def jdiv : JNum → JNum → JNum
  | JNum.nan, _ => JNum.nan
  | _, JNum.nan => JNum.nan
  | JNum.inf, JNum.inf => JNum.nan
  | JNum.inf, JNum.ninf => JNum.nan
  | JNum.ninf, JNum.inf => JNum.nan
  | JNum.ninf, JNum.ninf => JNum.nan
  | JNum.inf, JNum.num q => if 0 ≤ q then JNum.inf else JNum.ninf
  | JNum.ninf, JNum.num q => if 0 ≤ q then JNum.ninf else JNum.inf
  | JNum.num _, JNum.inf => JNum.num 0
  | JNum.num _, JNum.ninf => JNum.num 0
  | JNum.num a, JNum.num b =>
    if b = 0 then (if a = 0 then JNum.nan else if 0 < a then JNum.inf else JNum.ninf)
    else JNum.num (a / b)

/-- `<` on JavaScript numbers: false whenever either side is NaN. -/
def jlt : JNum → JNum → Bool
  | JNum.nan, _ => false
  | _, JNum.nan => false
  | JNum.inf, _ => false
  | JNum.ninf, JNum.ninf => false
  | JNum.ninf, _ => true
  | JNum.num _, JNum.inf => true
  | JNum.num _, JNum.ninf => false
  | JNum.num a, JNum.num b => decide (a < b)

def isFiniteNum : JNum → Bool
  | JNum.num _ => true
  | _ => false

/-- A node as resolveOverlaps touches it. -/
structure ONode where
  x : JNum
  y : JNum
  level : ℤ
deriving DecidableEq

/-- One pair check of a resolveOverlaps pass (lines 832-851): when within
`nodeRadius * 3 = 240` the nodes are pushed apart by half the overlap each
(strength 0.6 on the same level, 0.5 otherwise); with coincident nodes the
distance is 0 and `dx / distance` is `0/0 = NaN`. -/
def pairPush (sqrtF : JNum → JNum) (a b : ONode) : Option (ONode × ONode) :=
  let dx := jsub b.x a.x
  let dy := jsub b.y a.y
  let dist := sqrtF (jadd (jmul dx dx) (jmul dy dy))
  if jlt dist (JNum.num 240) then
    let overlap := jsub (JNum.num 240) dist
    let dirX := jdiv dx dist
    let dirY := jdiv dy dist
    let ps : ℚ := if a.level = b.level then 3/5 else 1/2
    some
      ({ a with
          x := jsub a.x (jmul (jmul dirX overlap) (JNum.num ps)),
          y := jsub a.y (jmul (jmul dirY overlap) (JNum.num ps)) },
       { b with
          x := jadd b.x (jmul (jmul dirX overlap) (JNum.num ps)),
          y := jadd b.y (jmul (jmul dirY overlap) (JNum.num ps)) })
  else none

/-- The `(i, j)` step: reads the current nodes, applies the push and sets the
moved flag; out-of-range indices (never reached) leave the state unchanged. -/
def innerStep (sqrtF : JNum → JNum) (i j : ℕ) (st : List ONode × Bool) :
    List ONode × Bool :=
  match st.1[i]?, st.1[j]? with
  | some a, some b =>
    match pairPush sqrtF a b with
    | some (a2, b2) => ((st.1.set i a2).set j b2, true)
    | none => st
  | _, _ => st

/-- The inner loop `for (let j = i + 1; ...)`. -/
def innerLoop (sqrtF : JNum → JNum) (i : ℕ) (js : List ℕ)
    (st : List ONode × Bool) : List ONode × Bool :=
  js.foldl (fun st j => innerStep sqrtF i j st) st

/-- The two nested loops of one pass, over the given outer indices. -/
def passFold (sqrtF : JNum → JNum) (n : ℕ) (is : List ℕ)
    (st : List ONode × Bool) : List ONode × Bool :=
  is.foldl
    (fun st i => innerLoop sqrtF i ((List.range n).filter (fun j => i < j)) st) st

/-- One full pass of resolveOverlaps: all pairs `i < j` in order, starting with
`moved = false`. -/
def onePass (sqrtF : JNum → JNum) (ns : List ONode) : List ONode × Bool :=
  passFold sqrtF ns.length (List.range ns.length) (ns, false)

/-- `k` full passes, ignoring the early stop (for stating the loop bound). -/
def applyPasses (sqrtF : JNum → JNum) : ℕ → List ONode → List ONode
  | 0, ns => ns
  | k + 1, ns => applyPasses sqrtF k (onePass sqrtF ns).1

/-- The `for (let iter = 0; iter < iterations; iter++)` loop with
`if (!moved) break;`, `iterations = 5`. -/
def resolveLoop (sqrtF : JNum → JNum) : ℕ → List ONode → List ONode
  | 0, ns => ns
  | fuel + 1, ns =>
    match onePass sqrtF ns with
    | (ns2, true) => resolveLoop sqrtF fuel ns2
    | (ns2, false) => ns2

def resolveOverlaps (sqrtF : JNum → JNum) (ns : List ONode) : List ONode :=
  resolveLoop sqrtF 5 ns

/-- A stand-in for `Math.sqrt`, exact at every argument the concrete run below
reaches: NaN ↦ NaN, a negative ↦ NaN, 0 ↦ 0 (and the IEEE values at ±∞); a
positive rational has an irrational square root in general and is mapped to
NaN here — the run below never takes the square root of a positive number. -/
def sqrtOnZero : JNum → JNum
  | JNum.nan => JNum.nan
  | JNum.inf => JNum.inf
  | JNum.ninf => JNum.nan
  | JNum.num q => if q = 0 then JNum.num 0 else JNum.nan

/-- Two nodes placed at exactly the same position. -/
def coincidentNodes : List ONode :=
  [⟨JNum.num 100, JNum.num 100, 0⟩, ⟨JNum.num 100, JNum.num 100, 0⟩]

lemma revAt_lt {L : List RLink} {i j : Nat} (h : revAt L i j = true) :
    i < L.length ∧ j < L.length := by
  unfold revAt at h
  split at h
  · next a b hi hj =>
    obtain ⟨hi1, -⟩ := List.getElem?_eq_some.mp hi
    obtain ⟨hj1, -⟩ := List.getElem?_eq_some.mp hj
    exact ⟨hi1, hj1⟩
  · exact absurd h (by simp)

lemma revAt_symm (L : List RLink) (i j : Nat) : revAt L j i = revAt L i j := by
  unfold revAt
  cases hi : L[i]? <;> cases hj : L[j]? <;> simp only []
  rw [Bool.eq_iff_iff]
  simp only [isRev, Bool.and_eq_true, beq_iff_eq]
  constructor
  · rintro ⟨h1, h2⟩; exact ⟨h2.symm, h1.symm⟩
  · rintro ⟨h1, h2⟩; exact ⟨h2.symm, h1.symm⟩

lemma firstRevAfter_some {L : List RLink} {i j : Nat} (h : firstRevAfter L i = some j) :
    i < j ∧ revAt L i j = true := by
  have hp := List.find?_some h
  simpa using hp

lemma uniquePartners_apply {L : List RLink} (hU : uniquePartners L) {i j k : Nat}
    (hij : revAt L i j = true) (hik : revAt L i k = true)
    (h1 : i ≠ j) (h2 : i ≠ k) : j = k := by
  have b1 := revAt_lt hij
  have b2 := revAt_lt hik
  exact hU i (List.mem_range.mpr b1.1) j (List.mem_range.mpr b1.2) k
    (List.mem_range.mpr b2.2) h1 h2 hij hik

/-- Characterization of the scan's map after processing indices `0, ..., n-1`,
valid when every link has at most one reverse partner: `k ↦ v` exactly when
`v` is `k`'s own first match, or `k` is the first match of `v`. -/
lemma pairsUpTo_eq_some (L : List RLink) (hU : uniquePartners L) :
    ∀ n k v, pairsUpTo L n k = some v ↔
      ((k < n ∧ firstRevAfter L k = some v) ∨
       (∃ i, i < n ∧ firstRevAfter L i = some k ∧ v = i)) := by
  intro n
  induction n with
  | zero => intro k v; simp [pairsUpTo]
  | succ n ih =>
    intro k v
    cases hfn : firstRevAfter L n with
    | none =>
      simp only [pairsUpTo]
      rw [hfn]
      rw [ih k v]
      constructor
      · rintro (⟨hk, hf⟩ | ⟨i, hi, hf, hv⟩)
        · exact Or.inl ⟨Nat.lt_succ_of_lt hk, hf⟩
        · exact Or.inr ⟨i, Nat.lt_succ_of_lt hi, hf, hv⟩
      · rintro (⟨hk, hf⟩ | ⟨i, hi, hf, hv⟩)
        · left
          refine ⟨?_, hf⟩
          rcases Nat.lt_succ_iff_lt_or_eq.mp hk with h | h
          · exact h
          · subst h; rw [hfn] at hf; cases hf
        · right
          refine ⟨i, ?_, hf, hv⟩
          rcases Nat.lt_succ_iff_lt_or_eq.mp hi with h | h
          · exact h
          · subst h; rw [hfn] at hf; cases hf
    | some j =>
      obtain ⟨hnj, hrev⟩ := firstRevAfter_some hfn
      simp only [pairsUpTo]
      rw [hfn]
      simp only []
      by_cases hkj : k = j
      · rw [if_pos hkj]
        constructor
        · intro hv
          have hv2 : v = n := by injection hv with h; omega
          refine Or.inr ⟨n, Nat.lt_succ_self n, ?_, hv2⟩
          rw [hkj]; exact hfn
        · rintro (⟨hk, hf⟩ | ⟨i, hi, hf, hv⟩)
          · omega
          · obtain ⟨hik, hrevIK⟩ := firstRevAfter_some hf
            have hrev2 : revAt L n k = true := by rw [hkj]; exact hrev
            have h1 : revAt L k i = true := (revAt_symm L i k).trans hrevIK
            have h2 : revAt L k n = true := (revAt_symm L n k).trans hrev2
            have hin : i = n :=
              uniquePartners_apply hU h1 h2 (by omega) (by omega)
            rw [hv, hin]
      · by_cases hkn : k = n
        · rw [if_neg hkj, if_pos hkn]
          constructor
          · intro hv
            have hv2 : v = j := by injection hv with h; omega
            refine Or.inl ⟨by omega, ?_⟩
            rw [hkn, hv2]; exact hfn
          · rintro (⟨hk, hf⟩ | ⟨i, hi, hf, hv⟩)
            · rw [hkn, hfn] at hf
              injection hf with h
              rw [h]
            · obtain ⟨hik, hrevIK⟩ := firstRevAfter_some hf
              have hrevIN : revAt L i n = true := by rw [← hkn]; exact hrevIK
              have h1 : revAt L n i = true := (revAt_symm L i n).trans hrevIN
              have hij : i = j :=
                uniquePartners_apply hU h1 hrev (by omega) (by omega)
              omega
        · rw [if_neg hkj, if_neg hkn]
          rw [ih k v]
          constructor
          · rintro (⟨hk, hf⟩ | ⟨i, hi, hf, hv⟩)
            · exact Or.inl ⟨by omega, hf⟩
            · exact Or.inr ⟨i, by omega, hf, hv⟩
          · rintro (⟨hk, hf⟩ | ⟨i, hi, hf, hv⟩)
            · exact Or.inl ⟨by omega, hf⟩
            · right
              refine ⟨i, ?_, hf, hv⟩
              rcases Nat.lt_succ_iff_lt_or_eq.mp hi with h | h
              · exact h
              · subst h; rw [hfn] at hf; injection hf with h2; omega

/-- Claim C1 (amended): when every link has at most one reverse partner in the
list, the bidirectional-pair lookup is symmetric, every mapped partner is a
genuine reverse match produced by the first-match scan, and of a mapped pair
with distinct endpoint ids exactly one link is drawn as the forward edge in
drawLink (the one whose source id is not greater than its target id).  Without
that restriction the claim fails, see the counterexample. -/
theorem c1_bidirectional_pairs (L : List RLink) (hU : uniquePartners L)
    (i j : Nat) (h : getBidirectionalPair L i = some j) :
    getBidirectionalPair L j = some i ∧
    revAt L i j = true ∧
    (firstRevAfter L i = some j ∨ firstRevAfter L j = some i) ∧
    (∀ a b, L[i]? = some a → L[j]? = some b → a.sourceId ≠ a.targetId →
      (isForwardEdge a = true ↔ isForwardEdge b = false)) := by
  unfold getBidirectionalPair bidirectionalPairs at h ⊢
  rw [pairsUpTo_eq_some L hU] at h
  have main : pairsUpTo L L.length j = some i ∧ revAt L i j = true ∧
      (firstRevAfter L i = some j ∨ firstRevAfter L j = some i) := by
    rcases h with ⟨hi, hf⟩ | ⟨i2, hi2, hf, hv⟩
    · obtain ⟨hij, hrev⟩ := firstRevAfter_some hf
      refine ⟨?_, hrev, Or.inl hf⟩
      rw [pairsUpTo_eq_some L hU]
      exact Or.inr ⟨i, (revAt_lt hrev).1, hf, rfl⟩
    · subst hv
      obtain ⟨hji, hrev⟩ := firstRevAfter_some hf
      refine ⟨?_, (revAt_symm L i j) ▸ hrev, Or.inr hf⟩
      rw [pairsUpTo_eq_some L hU]
      exact Or.inl ⟨(revAt_lt hrev).1, hf⟩
  refine ⟨main.1, main.2.1, main.2.2, ?_⟩
  intro a b ha hb hne
  have hrev := main.2.1
  unfold revAt at hrev
  rw [ha, hb] at hrev
  simp only [isRev, Bool.and_eq_true, beq_iff_eq] at hrev
  simp only [isForwardEdge, decide_eq_true_eq, decide_eq_false_iff_not]
  omega

/-- Claim C1 counterexample: in the list `[0→1, 1→0, 0→1]` links 0 and 1 are a
mutual reverse pair, yet after the scan link 0 maps to link 1 while link 1 maps
to link 2 (its pairing was overwritten at the second outer iteration), so the
lookup is not symmetric and the first match (link 0, found at outer index 0)
does not win for link 1. -/
theorem c1_pairs_not_symmetric :
    revAt c1CexLinks 0 1 = true ∧
    getBidirectionalPair c1CexLinks 0 = some 1 ∧
    getBidirectionalPair c1CexLinks 1 = some 2 ∧
    getBidirectionalPair c1CexLinks 1 ≠ some 0 := by decide

/-- Witness: c1_bidirectional_pairs applied to the two-link list `[5→9, 9→5]`. -/
theorem c1_bidirectional_pairs_witness :
    getBidirectionalPair c1WitLinks 1 = some 0 ∧
    revAt c1WitLinks 0 1 = true :=
  ⟨(c1_bidirectional_pairs c1WitLinks (by decide) 0 1 (by decide)).1,
   (c1_bidirectional_pairs c1WitLinks (by decide) 0 1 (by decide)).2.1⟩

/-! ### wrapText lemmas and claims C8, C9 -/

lemma splitSp_ne_nil (s : List Char) : splitSp s ≠ [] := by
  cases s with
  | nil => simp [splitSp]
  | cons c cs =>
    simp only [splitSp]
    split
    · simp
    · split <;> simp

lemma joinSp_cons_cons (w x : List Char) (ws : List (List Char)) :
    joinSp (w :: x :: ws) = w ++ ' ' :: joinSp (x :: ws) := rfl

lemma joinSp_splitSp (s : List Char) : joinSp (splitSp s) = s := by
  induction s with
  | nil => rfl
  | cons c cs ih =>
    by_cases hc : c = ' '
    · simp only [splitSp, if_pos hc]
      cases h : splitSp cs with
      | nil => exact absurd h (splitSp_ne_nil cs)
      | cons w ws =>
        rw [h] at ih
        rw [joinSp_cons_cons, ih, hc]
        rfl
    · simp only [splitSp, if_neg hc]
      cases h : splitSp cs with
      | nil => exact absurd h (splitSp_ne_nil cs)
      | cons w ws =>
        rw [h] at ih
        cases ws with
        | nil =>
          show c :: w = c :: cs
          have : w = cs := ih
          rw [this]
        | cons x xs =>
          rw [joinSp_cons_cons] at ih ⊢
          rw [List.cons_append, ih]

lemma wrapAux_ne_nil (f : List Char → ℚ) (mw : ℚ) :
    ∀ (ws : List (List Char)) (cur : List Char), wrapAux f mw ws cur ≠ [] := by
  intro ws
  induction ws with
  | nil => intro cur; simp [wrapAux]
  | cons w ws ih =>
    intro cur
    simp only [wrapAux]
    split
    · exact ih _
    · simp

lemma joinSp_wrapAux (f : List Char → ℚ) (mw : ℚ) :
    ∀ (ws : List (List Char)) (cur : List Char),
      joinSp (wrapAux f mw ws cur) = joinSp (cur :: ws) := by
  intro ws
  induction ws with
  | nil => intro cur; rfl
  | cons w ws ih =>
    intro cur
    simp only [wrapAux]
    split
    · rw [ih (cur ++ ' ' :: w)]
      cases ws with
      | nil => rfl
      | cons x xs =>
        rw [joinSp_cons_cons, joinSp_cons_cons, joinSp_cons_cons, List.append_assoc]
        rfl
    · cases h : wrapAux f mw ws w with
      | nil => exact absurd h (wrapAux_ne_nil f mw ws w)
      | cons l ls =>
        have h2 := ih w
        rw [h] at h2
        rw [joinSp_cons_cons, h2, joinSp_cons_cons]

lemma splitSp_no_space (s : List Char) : ∀ w ∈ splitSp s, ' ' ∉ w := by
  induction s with
  | nil =>
    intro w hw
    simp only [splitSp, List.mem_singleton] at hw
    rw [hw]; simp
  | cons c cs ih =>
    intro w hw
    by_cases hc : c = ' '
    · simp only [splitSp, if_pos hc] at hw
      rcases List.mem_cons.mp hw with h | h
      · rw [h]; simp
      · exact ih w h
    · simp only [splitSp, if_neg hc] at hw
      cases h2 : splitSp cs with
      | nil => exact absurd h2 (splitSp_ne_nil cs)
      | cons x xs =>
        rw [h2] at hw
        rcases List.mem_cons.mp hw with h | h
        · rw [h]
          intro hmem
          rcases List.mem_cons.mp hmem with h3 | h3
          · exact hc h3.symm
          · exact ih x (by rw [h2]; exact List.mem_cons_self x xs) h3
        · exact ih w (by rw [h2]; exact List.mem_cons.mpr (Or.inr h))

lemma splitSp_word (w : List Char) (hw : ' ' ∉ w) : splitSp w = [w] := by
  induction w with
  | nil => rfl
  | cons c cs ih =>
    have hc : c ≠ ' ' := fun h => hw (h ▸ List.mem_cons_self c cs)
    simp only [splitSp, if_neg hc]
    rw [ih (fun h => hw (List.mem_cons.mpr (Or.inr h)))]

lemma splitSp_append_word (w t : List Char) (hw : ' ' ∉ w) :
    splitSp (w ++ ' ' :: t) = w :: splitSp t := by
  induction w with
  | nil => simp [splitSp]
  | cons c cs ih =>
    have hc : c ≠ ' ' := fun h => hw (h ▸ List.mem_cons_self c cs)
    simp only [List.cons_append, splitSp, if_neg hc, List.append_eq]
    rw [ih (fun h => hw (List.mem_cons.mpr (Or.inr h)))]

lemma splitSp_joinSp (p0 : List Char) (ps : List (List Char))
    (h0 : ' ' ∉ p0) (hps : ∀ p ∈ ps, ' ' ∉ p) :
    splitSp (joinSp (p0 :: ps)) = p0 :: ps := by
  induction ps generalizing p0 with
  | nil => exact splitSp_word p0 h0
  | cons x xs ih =>
    rw [joinSp_cons_cons, splitSp_append_word p0 _ h0,
      ih x (hps x (List.mem_cons_self x xs)) (fun p hp => hps p (List.mem_cons.mpr (Or.inr hp)))]

lemma joinSp_concat (p0 : List Char) (ps : List (List Char)) (w : List Char) :
    joinSp (p0 :: (ps ++ [w])) = joinSp (p0 :: ps) ++ ' ' :: w := by
  induction ps generalizing p0 with
  | nil => rfl
  | cons x xs ih =>
    rw [List.cons_append, joinSp_cons_cons, joinSp_cons_cons, ih x, List.append_assoc]
    rw [List.cons_append]

lemma wrapAux_single_extend (f : List Char → ℚ) (mw : ℚ) :
    ∀ (ts : List (List Char)) (h c w : List Char),
      wrapAux f mw ts h = [c] → f (c ++ ' ' :: w) < mw →
      wrapAux f mw (ts ++ [w]) h = [c ++ ' ' :: w] := by
  intro ts
  induction ts with
  | nil =>
    intro h c w hc hlt
    have hhc : h = c := by simpa [wrapAux] using hc
    simp only [List.nil_append, wrapAux, hhc]
    rw [if_pos hlt]
  | cons t ts ih =>
    intro h c w hc hlt
    simp only [wrapAux] at hc
    simp only [List.cons_append, wrapAux]
    by_cases hcond : f (h ++ ' ' :: t) < mw
    · rw [if_pos hcond] at hc ⊢
      exact ih _ c w hc hlt
    · rw [if_neg hcond] at hc
      injection hc with h1 h2
      exact absurd h2 (wrapAux_ne_nil f mw ts t)

lemma wrapAux_lines_good (f : List Char → ℚ) (mw : ℚ) :
    ∀ (ws : List (List Char)) (cur : List Char),
      (∀ w ∈ ws, ' ' ∉ w) → PGoodLine f mw cur →
      ∀ L ∈ wrapAux f mw ws cur, PGoodLine f mw L := by
  intro ws
  induction ws with
  | nil =>
    intro cur hsf hg L hL
    simp only [wrapAux, List.mem_singleton] at hL
    rw [hL]; exact hg
  | cons w ws ih =>
    intro cur hsf hg L hL
    simp only [wrapAux] at hL
    by_cases hcond : f (cur ++ ' ' :: w) < mw
    · rw [if_pos hcond] at hL
      refine ih (cur ++ ' ' :: w) (fun x hx => hsf x (List.mem_cons.mpr (Or.inr hx))) ?_ L hL
      obtain ⟨p0, ps, h0, hps, hcur, hwrap⟩ := hg
      refine ⟨p0, ps ++ [w], h0, ?_, ?_, ?_⟩
      · intro p hp
        rcases List.mem_append.mp hp with h | h
        · exact hps p h
        · rw [List.mem_singleton.mp h]
          exact hsf w (List.mem_cons_self w ws)
      · rw [joinSp_concat, ← hcur]
      · exact wrapAux_single_extend f mw ps p0 cur w hwrap hcond
    · rw [if_neg hcond] at hL
      rcases List.mem_cons.mp hL with h | h
      · rw [h]; exact hg
      · refine ih w (fun x hx => hsf x (List.mem_cons.mpr (Or.inr hx))) ?_ L h
        exact ⟨w, [], hsf w (List.mem_cons_self w ws), by simp, rfl, by simp [wrapAux]⟩

/-- Claim C9: for every measuring function, input text and width, wrapText
returns a non-empty list of lines whose space-join reproduces the input text
exactly (no word lost, none duplicated, order preserved). -/
theorem c9_wrapText_preserves_content (f : List Char → ℚ) (text : List Char) (mw : ℚ) :
    joinSp (wrapText f text mw) = text ∧ wrapText f text mw ≠ [] := by
  unfold wrapText
  cases h : splitSp text with
  | nil => exact absurd h (splitSp_ne_nil text)
  | cons w ws =>
    refine ⟨?_, wrapAux_ne_nil f mw ws w⟩
    rw [joinSp_wrapAux, ← h]
    exact joinSp_splitSp text

/-- Claim C8: wrapText is idempotent on its own output lines: every line `L`
returned by `wrapText text maxWidth` satisfies `wrapText L maxWidth = [L]`,
for any (not even necessarily monotone) measuring function. -/
theorem c8_wrapText_idempotent (f : List Char → ℚ) (text : List Char) (mw : ℚ)
    (L : List Char) (hL : L ∈ wrapText f text mw) :
    wrapText f L mw = [L] := by
  unfold wrapText at hL
  have hsf := splitSp_no_space text
  cases h : splitSp text with
  | nil => exact absurd h (splitSp_ne_nil text)
  | cons w ws =>
    rw [h] at hL hsf
    have hgood : PGoodLine f mw L := by
      refine wrapAux_lines_good f mw ws w
        (fun x hx => hsf x (List.mem_cons.mpr (Or.inr hx))) ?_ L hL
      exact ⟨w, [], hsf w (List.mem_cons_self w ws), by simp, rfl, by simp [wrapAux]⟩
    obtain ⟨p0, ps, h0, hps, hcur, hwrap⟩ := hgood
    rw [hcur]
    unfold wrapText
    rw [splitSp_joinSp p0 ps h0 hps]
    rw [← hcur]
    exact hwrap

/-- Witness for c8_wrapText_idempotent: the single line returned for the text
"ab cd" at width 6 (with the character-count measure) rewraps to itself. -/
theorem c8_wrapText_idempotent_witness :
    wrapText (fun s => (s.length : ℚ)) (['a', 'b', ' ', 'c', 'd'] : List Char) 6 =
      [['a', 'b', ' ', 'c', 'd']] :=
  c8_wrapText_idempotent (fun s => (s.length : ℚ)) ['a', 'b', ' ', 'c', 'd'] 6
    ['a', 'b', ' ', 'c', 'd'] (by decide)

/-! ### computeNodeHierarchy lemmas and claims C2, C10 -/

lemma sum_update_succ {n : ℕ} (f : Fin n → ℕ) (i : Fin n) :
    (∑ j, Function.update f i (f i + 1) j) = (∑ j, f j) + 1 := by
  rw [Finset.sum_update_of_mem (Finset.mem_univ i), ← Finset.erase_eq]
  have h := Finset.add_sum_erase Finset.univ f (Finset.mem_univ i)
  omega

lemma degrees_fold_sum {n : ℕ} (ls : List (Option (Fin n) × Option (Fin n))) :
    ∀ c p : Fin n → ℕ,
      (∑ i, (ls.foldl (degreeStep n) (c, p)).1 i) =
        (∑ i, c i) + (ls.filter (fun l => l.1.isSome && l.2.isSome)).length ∧
      (∑ i, (ls.foldl (degreeStep n) (c, p)).2 i) =
        (∑ i, p i) + (ls.filter (fun l => l.1.isSome && l.2.isSome)).length := by
  induction ls with
  | nil => intro c p; simp
  | cons l ls ih =>
    intro c p
    rw [List.foldl_cons]
    rcases l with ⟨l1, l2⟩
    cases h1 : l1 with
    | none =>
      have hstep : degreeStep n (c, p) (none, l2) = (c, p) := by cases l2 <;> rfl
      have hfil : ((none, l2) :: ls).filter (fun l => l.1.isSome && l.2.isSome) =
          ls.filter (fun l => l.1.isSome && l.2.isSome) := by simp
      rw [hstep, hfil]
      exact ih c p
    | some s =>
      cases h2 : l2 with
      | none =>
        have hstep : degreeStep n (c, p) (some s, none) = (c, p) := rfl
        have hfil : ((some s, none) :: ls).filter (fun l => l.1.isSome && l.2.isSome) =
            ls.filter (fun l => l.1.isSome && l.2.isSome) := by simp
        rw [hstep, hfil]
        exact ih c p
      | some t =>
        have hstep : degreeStep n (c, p) (some s, some t) =
            (Function.update c s (c s + 1), Function.update p t (p t + 1)) := rfl
        have hfil : ((some s, some t) :: ls).filter (fun l => l.1.isSome && l.2.isSome) =
            (some s, some t) :: ls.filter (fun l => l.1.isSome && l.2.isSome) := by simp
        rw [hstep, hfil, List.length_cons]
        have hih := ih (Function.update c s (c s + 1)) (Function.update p t (p t + 1))
        constructor
        · rw [hih.1, sum_update_succ]
          omega
        · rw [hih.2, sum_update_succ]
          omega

/-- Claim C10: after the degree-counting pass the childCount total and the
parentCount total both equal the number of links with both endpoints resolved
(each such link bumps exactly one childCount and one parentCount; all counts
are naturals, hence non-negative, matching their construction by `+ 1` from
0). -/
theorem c10_degree_sums (g : HGraph) :
    (∑ i, (degrees g).1 i) =
      (g.links.filter (fun l => l.1.isSome && l.2.isSome)).length ∧
    (∑ i, (degrees g).2 i) =
      (g.links.filter (fun l => l.1.isSome && l.2.isSome)).length := by
  have h := degrees_fold_sum g.links (fun _ => 0) (fun _ => 0)
  unfold degrees
  constructor
  · rw [h.1]; simp
  · rw [h.2]; simp

lemma degrees_fold_at_parent {n : ℕ} (ls : List (Option (Fin n) × Option (Fin n)))
    (i : Fin n) :
    ∀ c p : Fin n → ℕ, (∀ l ∈ ls, l.2 ≠ some i) →
      (ls.foldl (degreeStep n) (c, p)).2 i = p i := by
  induction ls with
  | nil => intro c p _; rfl
  | cons l ls ih =>
    intro c p h
    rw [List.foldl_cons]
    have hl := h l (List.mem_cons_self l ls)
    have hrest : ∀ x ∈ ls, x.2 ≠ some i := fun x hx => h x (List.mem_cons.mpr (Or.inr hx))
    rcases l with ⟨l1, l2⟩
    cases l1 with
    | none =>
      have hstep : degreeStep n (c, p) (none, l2) = (c, p) := by cases l2 <;> rfl
      rw [hstep]
      exact ih c p hrest
    | some s =>
      cases l2 with
      | none =>
        have hstep : degreeStep n (c, p) (some s, none) = (c, p) := rfl
        rw [hstep]
        exact ih c p hrest
      | some t =>
        have hstep : degreeStep n (c, p) (some s, some t) =
            (Function.update c s (c s + 1), Function.update p t (p t + 1)) := rfl
        rw [hstep, ih _ _ hrest]
        have hti : i ≠ t := fun hh => hl (by rw [hh])
        exact Function.update_noteq hti _ _

lemma bfsChildFold_level_at (g : HGraph) (cur i : Fin g.n) :
    ∀ (cs : List (Option (Fin g.n))) (lv : Fin g.n → Option ℤ) (vis : List ℕ)
      (newQ : List (Fin g.n)), some i ∉ cs →
      (bfsChildFold g cur cs lv vis newQ).1 i = lv i := by
  intro cs
  induction cs with
  | nil => intro lv vis newQ _; rfl
  | cons c cs ih =>
    intro lv vis newQ h
    have hc : some i ≠ c := fun hh => h (hh ▸ List.mem_cons_self c cs)
    have hrest : some i ∉ cs := fun hh => h (List.mem_cons.mpr (Or.inr hh))
    cases c with
    | none =>
      simp only [bfsChildFold]
      exact ih lv vis newQ hrest
    | some cn =>
      simp only [bfsChildFold]
      by_cases hv : g.idOf cn ∈ vis
      · rw [if_pos hv]; exact ih _ _ _ hrest
      · rw [if_neg hv, ih _ _ _ hrest]
        exact Function.update_noteq (fun hh => hc (by rw [hh])) _ _

lemma bfsLoop_level_at (g : HGraph) (i : Fin g.n)
    (h : ∀ l ∈ g.links, l.2 ≠ some i) :
    ∀ (fuel : ℕ) (lv : Fin g.n → Option ℤ) (vis : List ℕ) (q : List (Fin g.n)),
      bfsLoop g fuel lv vis q i = lv i := by
  intro fuel
  induction fuel with
  | zero => intro lv vis q; rfl
  | succ fuel ih =>
    intro lv vis q
    cases q with
    | nil => rfl
    | cons cur rest =>
      simp only [bfsLoop]
      rw [ih _ _ _]
      apply bfsChildFold_level_at
      intro hmem
      unfold childTargets at hmem
      rcases List.mem_map.mp hmem with ⟨l, hl, hl2⟩
      exact h l (List.mem_filter.mp hl).1 hl2

lemma bfsChildFold_nonneg (g : HGraph) (cur : Fin g.n) :
    ∀ (cs : List (Option (Fin g.n))) (lv : Fin g.n → Option ℤ) (vis : List ℕ)
      (newQ : List (Fin g.n)),
      (∀ j v, lv j = some v → 0 ≤ v) →
      ∀ j v, (bfsChildFold g cur cs lv vis newQ).1 j = some v → 0 ≤ v := by
  intro cs
  induction cs with
  | nil => intro lv vis newQ hinv j v hj; exact hinv j v hj
  | cons c cs ih =>
    intro lv vis newQ hinv
    cases c with
    | none =>
      simp only [bfsChildFold]
      exact ih lv vis newQ hinv
    | some cn =>
      simp only [bfsChildFold]
      by_cases hv : g.idOf cn ∈ vis
      · rw [if_pos hv]; exact ih _ _ _ hinv
      · rw [if_neg hv]
        apply ih
        intro j v hj
        by_cases hj2 : j = cn
        · rw [hj2, Function.update_same] at hj
          injection hj with hv2
          have hcur0 : 0 ≤ levelOrZero (lv cur) := by
            unfold levelOrZero
            cases hcur : lv cur with
            | none => exact le_refl 0
            | some u => exact hinv cur u hcur
          omega
        · rw [Function.update_noteq hj2] at hj
          exact hinv j v hj

lemma bfsLoop_nonneg (g : HGraph) :
    ∀ (fuel : ℕ) (lv : Fin g.n → Option ℤ) (vis : List ℕ) (q : List (Fin g.n)),
      (∀ j v, lv j = some v → 0 ≤ v) →
      ∀ j v, bfsLoop g fuel lv vis q j = some v → 0 ≤ v := by
  intro fuel
  induction fuel with
  | zero => intro lv vis q hinv j v hj; exact hinv j v hj
  | succ fuel ih =>
    intro lv vis q hinv
    cases q with
    | nil => intro j v hj; exact hinv j v hj
    | cons cur rest =>
      simp only [bfsLoop]
      exact ih _ _ _ (bfsChildFold_nonneg g cur _ lv vis [] hinv)

lemma bfsLevels_nonneg (g : HGraph) :
    ∀ j v, bfsLevels g j = some v → 0 ≤ v := by
  apply bfsLoop_nonneg
  intro j v hj
  unfold initLevels at hj
  by_cases h : j ∈ rootIdxs g
  · rw [if_pos h] at hj; injection hj with h2; omega
  · rw [if_neg h] at hj; cases hj

lemma pushIfLeveled_mem {n : ℕ} (lv : Fin n → Option ℤ) (t : Option (Fin n)) (v : ℤ)
    (h : v ∈ pushIfLeveled lv t) : ∃ u, lv u = some v := by
  cases t with
  | none => simp [pushIfLeveled] at h
  | some tn =>
    simp only [pushIfLeveled] at h
    cases hlv : lv tn with
    | none => rw [hlv] at h; simp at h
    | some u =>
      rw [hlv] at h
      exact ⟨tn, by rw [hlv, List.mem_singleton.mp h]⟩

lemma linkContrib_mem (g : HGraph) (lv : Fin g.n → Option ℤ) (node : Fin g.n)
    (l : Option (Fin g.n) × Option (Fin g.n)) :
    ∀ v ∈ linkContrib g lv node l, ∃ t, lv t = some v := by
  intro v hv
  unfold linkContrib at hv
  rcases List.mem_append.mp hv with h | h
  · rcases l with ⟨l1, l2⟩
    cases l1 with
    | none => simp at h
    | some s =>
      simp only [] at h
      cases hc : (g.idOf s == g.idOf node) with
      | false => rw [hc] at h; simp at h
      | true =>
        rw [hc, if_pos rfl] at h
        exact pushIfLeveled_mem lv l2 v h
  · rcases l with ⟨l1, l2⟩
    cases l2 with
    | none => simp at h
    | some t =>
      simp only [] at h
      cases hc : (g.idOf t == g.idOf node) with
      | false => rw [hc] at h; simp at h
      | true =>
        rw [hc, if_pos rfl] at h
        exact pushIfLeveled_mem lv l1 v h

lemma foldl_append_mem {α β : Type} (f : α → List β) :
    ∀ (ls : List α) (acc : List β) (v : β),
      v ∈ ls.foldl (fun a l => a ++ f l) acc → v ∈ acc ∨ ∃ l ∈ ls, v ∈ f l := by
  intro ls
  induction ls with
  | nil => intro acc v hv; exact Or.inl hv
  | cons l ls ih =>
    intro acc v hv
    rw [List.foldl_cons] at hv
    rcases ih (acc ++ f l) v hv with h | ⟨l2, hl2, hm⟩
    · rcases List.mem_append.mp h with h2 | h2
      · exact Or.inl h2
      · exact Or.inr ⟨l, List.mem_cons_self l ls, h2⟩
    · exact Or.inr ⟨l2, List.mem_cons.mpr (Or.inr hl2), hm⟩

lemma connectedLeveled_mem (g : HGraph) (lv : Fin g.n → Option ℤ) (node : Fin g.n) :
    ∀ v ∈ connectedLeveled g lv node, ∃ t, lv t = some v := by
  intro v hv
  unfold connectedLeveled at hv
  rcases foldl_append_mem (linkContrib g lv node) g.links [] v hv with h | ⟨l, _, hm⟩
  · simp at h
  · exact linkContrib_mem g lv node l v hm

lemma foldl_add_nonneg :
    ∀ (ls : List ℤ) (a : ℤ), 0 ≤ a → (∀ v ∈ ls, 0 ≤ v) → 0 ≤ ls.foldl (· + ·) a := by
  intro ls
  induction ls with
  | nil => intro a ha _; exact ha
  | cons x ls ih =>
    intro a ha h
    rw [List.foldl_cons]
    exact ih (a + x) (by have := h x (List.mem_cons_self x ls); omega)
      (fun v hv => h v (List.mem_cons.mpr (Or.inr hv)))

lemma fallbackValue_nonneg (g : HGraph) (lv : Fin g.n → Option ℤ) (node : Fin g.n)
    (hinv : ∀ j v, lv j = some v → 0 ≤ v) :
    0 ≤ fallbackValue g lv node := by
  unfold fallbackValue
  split
  · exact le_refl 0
  · have hsum : 0 ≤ (connectedLeveled g lv node).foldl (· + ·) 0 :=
      foldl_add_nonneg _ 0 (le_refl 0)
        (fun v hv => by
          obtain ⟨t, ht⟩ := connectedLeveled_mem g lv node v hv
          exact hinv t v ht)
    have hlen : (0 : ℤ) ≤ ((connectedLeveled g lv node).length : ℤ) :=
      Int.natCast_nonneg _
    have := Int.fdiv_nonneg hsum hlen
    omega

lemma fallbackStep_eq_some (g : HGraph) (lv : Fin g.n → Option ℤ) (i : Fin g.n)
    (u : ℤ) (h : lv i = some u) : fallbackStep g lv i = lv := by
  unfold fallbackStep
  rw [h]

lemma fallbackStep_eq_none (g : HGraph) (lv : Fin g.n → Option ℤ) (i : Fin g.n)
    (h : lv i = none) :
    fallbackStep g lv i = Function.update lv i (some (fallbackValue g lv i)) := by
  unfold fallbackStep
  rw [h]

lemma fallbackStep_nonneg (g : HGraph) (lv : Fin g.n → Option ℤ) (i : Fin g.n)
    (hinv : ∀ j v, lv j = some v → 0 ≤ v) :
    ∀ j v, fallbackStep g lv i j = some v → 0 ≤ v := by
  intro j v hj
  cases h : lv i with
  | some u =>
    rw [fallbackStep_eq_some g lv i u h] at hj
    exact hinv j v hj
  | none =>
    rw [fallbackStep_eq_none g lv i h] at hj
    by_cases hji : j = i
    · rw [hji, Function.update_same] at hj
      injection hj with h2
      have := fallbackValue_nonneg g lv i hinv
      omega
    · rw [Function.update_noteq hji] at hj
      exact hinv j v hj

lemma foldl_fallbackStep_nonneg (g : HGraph) :
    ∀ (js : List (Fin g.n)) (lv : Fin g.n → Option ℤ),
      (∀ j v, lv j = some v → 0 ≤ v) →
      ∀ j v, (js.foldl (fallbackStep g) lv) j = some v → 0 ≤ v := by
  intro js
  induction js with
  | nil => intro lv hinv; exact hinv
  | cons x js ih =>
    intro lv hinv
    rw [List.foldl_cons]
    exact ih _ (fallbackStep_nonneg g lv x hinv)

lemma fallbackStep_at_ne (g : HGraph) (lv : Fin g.n → Option ℤ) (j i : Fin g.n)
    (h : i ≠ j) : fallbackStep g lv j i = lv i := by
  cases hj : lv j with
  | some u => rw [fallbackStep_eq_some g lv j u hj]
  | none =>
    rw [fallbackStep_eq_none g lv j hj]
    exact Function.update_noteq h _ _

lemma foldl_fallbackStep_at (g : HGraph) :
    ∀ (js : List (Fin g.n)) (lv : Fin g.n → Option ℤ) (i : Fin g.n), i ∉ js →
      (js.foldl (fallbackStep g) lv) i = lv i := by
  intro js
  induction js with
  | nil => intro lv i _; rfl
  | cons x js ih =>
    intro lv i h
    have hx : i ≠ x := fun hh => h (hh ▸ List.mem_cons_self x js)
    have hrest : i ∉ js := fun hh => h (List.mem_cons.mpr (Or.inr hh))
    rw [List.foldl_cons, ih _ i hrest]
    exact fallbackStep_at_ne g lv x i hx

lemma finRange_decomp (n : ℕ) (i : Fin n) :
    List.finRange n =
      (List.finRange n).take i.val ++ i :: (List.finRange n).drop (i.val + 1) := by
  have hlt : i.val < (List.finRange n).length := by
    rw [List.length_finRange]; exact i.isLt
  have hdrop := List.drop_eq_getElem_cons hlt
  have hget : (List.finRange n)[i.val] = i := by
    rw [List.getElem_finRange]
    apply Fin.ext
    simp
  rw [hget] at hdrop
  conv_lhs => rw [← List.take_append_drop i.val (List.finRange n), hdrop]

lemma not_mem_take_finRange (n : ℕ) (i : Fin n) :
    i ∉ (List.finRange n).take i.val := by
  have hnd := List.nodup_finRange n
  rw [finRange_decomp n i] at hnd
  exact fun hmem =>
    List.disjoint_of_nodup_append hnd hmem (List.mem_cons_self i _)

lemma not_mem_drop_finRange (n : ℕ) (i : Fin n) :
    i ∉ (List.finRange n).drop (i.val + 1) := by
  have hnd := List.nodup_finRange n
  rw [finRange_decomp n i] at hnd
  exact (List.nodup_cons.mp (List.Nodup.of_append_right hnd)).1

lemma computeNodeHierarchy_at (g : HGraph) (i : Fin g.n) :
    computeNodeHierarchy g i = fallbackStep g (fallbackUpTo g i) i i := by
  unfold computeNodeHierarchy fallbackUpTo
  conv_lhs => rw [finRange_decomp g.n i]
  rw [List.foldl_append, List.foldl_cons]
  exact foldl_fallbackStep_at g _ _ i (not_mem_drop_finRange g.n i)

lemma fallbackUpTo_at_self (g : HGraph) (i : Fin g.n) :
    fallbackUpTo g i i = bfsLevels g i := by
  unfold fallbackUpTo
  exact foldl_fallbackStep_at g _ _ i (not_mem_take_finRange g.n i)

/-- Claim C2: after computeNodeHierarchy, every node's level is defined and
non-negative (for any node list and any link list, including cycles, isolated
nodes and single nodes); an isolated node ends at level 0 (it is a root); and a
node the breadth-first phase left unleveled is assigned
`Math.floor(average of the connected already-leveled endpoint levels) + 1` (or
0 when there are none) computed in the state at its turn of the final pass. -/
theorem c2_levels_defined (g : HGraph) :
    (∀ i : Fin g.n, ∃ v : ℤ, computeNodeHierarchy g i = some v ∧ 0 ≤ v) ∧
    (∀ i : Fin g.n, isolatedNode g i → computeNodeHierarchy g i = some 0) ∧
    (∀ i : Fin g.n, bfsLevels g i = none →
      computeNodeHierarchy g i = some (fallbackValue g (fallbackUpTo g i) i)) := by
  have hinvU : ∀ i : Fin g.n, ∀ j v, fallbackUpTo g i j = some v → 0 ≤ v :=
    fun i => foldl_fallbackStep_nonneg g _ _ (bfsLevels_nonneg g)
  refine ⟨?_, ?_, ?_⟩
  · intro i
    rw [computeNodeHierarchy_at g i]
    cases h : fallbackUpTo g i i with
    | some u =>
      rw [fallbackStep_eq_some g _ i u h]
      exact ⟨u, h, hinvU i i u h⟩
    | none =>
      rw [fallbackStep_eq_none g _ i h]
      exact ⟨fallbackValue g (fallbackUpTo g i) i, Function.update_same i _ _,
        fallbackValue_nonneg g _ i (hinvU i)⟩
  · intro i hiso
    have hpc : (degrees g).2 i = 0 := by
      unfold degrees
      exact degrees_fold_at_parent g.links i _ _ (fun l hl => (hiso l hl).2)
    have hz : i ∈ (List.finRange g.n).filter (fun j => (degrees g).2 j == 0) := by
      rw [List.mem_filter]
      refine ⟨List.mem_finRange i, ?_⟩
      rw [hpc]
      rfl
    have hroot : i ∈ rootIdxs g := by
      unfold rootIdxs
      have hne : ((List.finRange g.n).filter
          (fun j => (degrees g).2 j == 0)).isEmpty = false := by
        cases h2 : (List.finRange g.n).filter (fun j => (degrees g).2 j == 0) with
        | nil => rw [h2] at hz; cases hz
        | cons a as => rfl
      rw [hne, if_neg Bool.false_ne_true]
      exact hz
    have hbfs : bfsLevels g i = some 0 := by
      unfold bfsLevels
      rw [bfsLoop_level_at g i (fun l hl => (hiso l hl).2)]
      simp only [initLevels, if_pos hroot]
    rw [computeNodeHierarchy_at g i]
    have hU : fallbackUpTo g i i = some 0 := by
      rw [fallbackUpTo_at_self g i]
      exact hbfs
    rw [fallbackStep_eq_some g _ i 0 hU]
    exact hU
  · intro i hnone
    rw [computeNodeHierarchy_at g i]
    have hU : fallbackUpTo g i i = none := by
      rw [fallbackUpTo_at_self g i]
      exact hnone
    rw [fallbackStep_eq_none g _ i hU]
    exact Function.update_same i _ _

/-- Witness for c2_levels_defined: in the 3-cycle-plus-isolated-node graph the
isolated node 3 ends at level 0, and node 0 (unreached by the breadth-first
phase, all of its component being a cycle) is assigned the fallback value. -/
theorem c2_levels_defined_witness :
    isolatedNode c2WitGraph ⟨3, by decide⟩ ∧
    computeNodeHierarchy c2WitGraph ⟨3, by decide⟩ = some 0 ∧
    bfsLevels c2WitGraph ⟨0, by decide⟩ = none ∧
    computeNodeHierarchy c2WitGraph ⟨0, by decide⟩ =
      some (fallbackValue c2WitGraph (fallbackUpTo c2WitGraph ⟨0, by decide⟩)
        ⟨0, by decide⟩) :=
  ⟨by decide, (c2_levels_defined c2WitGraph).2.1 ⟨3, by decide⟩ (by decide),
   by decide, (c2_levels_defined c2WitGraph).2.2 ⟨0, by decide⟩ (by decide)⟩

/-! ### Claims C3, C4, C5, C6, C7 -/

/-- Claim C3 counterexample: the edge referencing the missing node id 2 is not
dropped at ingestion: processData leaves it in `this.links` (here with its
target `undefined`), so the resulting links list is not free of it. -/
theorem c3_dangling_edge_kept :
    (processData c3Data).links.length = 1 ∧
    (processData c3Data).links =
      [⟨some ⟨1, "A", none, "#999999", none, none, none⟩, none, "REL"⟩] := by
  exact ⟨rfl, rfl⟩

/-- Claim C3 (amended): processData drops nothing — it keeps one link per input
edge, with unresolved endpoints left `undefined`; the well-formed nodes are all
loaded, and a link with an undefined endpoint fails drawLink's guard, so it is
skipped at render time rather than ever drawn. -/
theorem c3_processData_amended (d : InData) :
    (processData d).nodes.length = d.nodes.length ∧
    (processData d).links.length = d.edges.length ∧
    (∀ (k : ℕ) (e : InEdge), d.edges[k]? = some e →
      (processData d).links[k]? =
        some ⟨resolveNode (processData d).nodes e.source_node_id,
              resolveNode (processData d).nodes e.target_node_id,
              e.relationship_name⟩) ∧
    (∀ l ∈ (processData d).links, l.source = none ∨ l.target = none →
      drawLinkEnters l = false) := by
  refine ⟨?_, ?_, ?_, ?_⟩
  · simp [processData]
  · simp [processData, processLinks]
  · intro k e hk
    simp [processData, processLinks, List.getElem?_map, hk]
  · intro l hl h
    rcases l with ⟨ls, lt, r⟩
    rcases h with h | h
    · rw [show ls = none from h]
      rfl
    · rw [show lt = none from h]
      unfold drawLinkEnters
      cases ls <;> rfl

/-- Witness for c3_processData_amended at the one-node document with the
dangling edge. -/
theorem c3_processData_amended_witness :
    (processData c3Data).links[0]? =
      some ⟨resolveNode (processData c3Data).nodes 1,
            resolveNode (processData c3Data).nodes 2, "REL"⟩ :=
  (c3_processData_amended c3Data).2.2.1 0 ⟨1, 2, "REL"⟩ rfl

/-- Claim C4 (code bug): a node that was never pinned has `fx = fy = undefined`,
and `undefined !== null` is true, so the cluster force's guard skips it — its
velocity stays (0, 0) although the claim (and the code's own comment, which
only wants to skip fixed nodes) prescribes increments 20 horizontally and 80
vertically here; only a node with `fx` and `fy` explicitly null is moved. -/
theorem c4_cluster_force_skips_unpinned :
    typeClusterForceOnNode (100, 200) 1 c4Node = c4Node ∧
    (100 - c4Node.x) * (1/5 * 1) = 20 ∧
    (200 - c4Node.y) * (2/5 * 1) = 80 ∧
    typeClusterForceOnNode (100, 200) 1
        ⟨0, 0, JsVal.num 0, JsVal.num 0, JsVal.null, JsVal.null⟩ =
      ⟨0, 0, JsVal.num 20, JsVal.num 80, JsVal.null, JsVal.null⟩ := by
  refine ⟨rfl, by norm_num [c4Node], by norm_num [c4Node],
    by norm_num [typeClusterForceOnNode, jsOrZero]⟩

/-- Claim C5 (code bug): processData stores the relationship name under
`.relationship`, but getLinkDistance reads `.relationship_name`, which is
`undefined` on every ingested link — so the primary/secondary adjustments never
fire: the ACTED_IN edge between two same-type, same-level nodes gets distance
500 from the code, while the same function with the name visible (and the
claim's formula) give 400. -/
theorem c5_relationship_adjustments_dead :
    (processData c5Data).links = [⟨some c5NodeA, some c5NodeB, "ACTED_IN"⟩] ∧
    (processData c5Data).links.map getLinkDistanceIngested = [some 500] ∧
    getLinkDistance c5NodeA c5NodeB (some "ACTED_IN") = 400 ∧
    c5ClaimedDistance c5NodeA c5NodeB "ACTED_IN" = 400 := by
  refine ⟨by decide, by decide, by decide, by decide⟩

lemma fitBoundsAux_mono (r : ℚ) :
    ∀ (ps : List (ℚ × ℚ)) (b : Bounds),
      (fitBoundsAux r ps b).minX ≤ b.minX ∧ b.maxX ≤ (fitBoundsAux r ps b).maxX ∧
      (fitBoundsAux r ps b).minY ≤ b.minY ∧ b.maxY ≤ (fitBoundsAux r ps b).maxY := by
  intro ps
  induction ps with
  | nil =>
    intro b
    exact ⟨le_refl _, le_refl _, le_refl _, le_refl _⟩
  | cons q ps ih =>
    intro b
    have h := ih ⟨min b.minX (q.1 - r), max b.maxX (q.1 + r),
      min b.minY (q.2 - r), max b.maxY (q.2 + r)⟩
    unfold fitBoundsAux at h ⊢
    rw [List.foldl_cons]
    refine ⟨le_trans h.1 ?_, le_trans ?_ h.2.1, le_trans h.2.2.1 ?_,
      le_trans ?_ h.2.2.2⟩
    · exact min_le_left _ _
    · exact le_max_left _ _
    · exact min_le_left _ _
    · exact le_max_left _ _

lemma fitBoundsOf_spread (p : ℚ × ℚ) (rest : List (ℚ × ℚ)) :
    1280 ≤ (fitBoundsOf (p :: rest)).maxX - (fitBoundsOf (p :: rest)).minX ∧
    1280 ≤ (fitBoundsOf (p :: rest)).maxY - (fitBoundsOf (p :: rest)).minY := by
  have h := fitBoundsAux_mono 640 rest
    ⟨p.1 - 640, p.1 + 640, p.2 - 640, p.2 + 640⟩
  unfold fitBoundsOf
  constructor
  · have h1 := h.1
    have h2 := h.2.1
    simp only [] at h1 h2
    linarith
  · have h1 := h.2.2.1
    have h2 := h.2.2.2
    simp only [] at h1 h2
    linarith

/-- Claim C6 (amended): for a non-empty graph on a positive canvas the
transform is computed, its scale equals
`min(0.15, 0.85·w/graphWidth, 0.85·h/graphHeight)`, is positive and at most
`maxZoom = 5` — but nothing clamps it to `minZoom = 0.05` from below (the
counterexample exhibits a scale below 0.05). -/
theorem c6_fit_scale (w h : ℚ) (ps : List (ℚ × ℚ)) (hw : 0 < w) (hh : 0 < h)
    (hne : ps ≠ []) :
    fitViewToContent w h ps =
      some (fitScale w h ps,
        w / 2 - (((fitBoundsOf ps).minX + (fitBoundsOf ps).maxX) / 2) * fitScale w h ps,
        h / 2 - (((fitBoundsOf ps).minY + (fitBoundsOf ps).maxY) / 2) * fitScale w h ps) ∧
    fitScale w h ps =
      min (3/20)
        (min (w * (17/20) / ((fitBoundsOf ps).maxX - (fitBoundsOf ps).minX))
             (h * (17/20) / ((fitBoundsOf ps).maxY - (fitBoundsOf ps).minY))) ∧
    0 < fitScale w h ps ∧ fitScale w h ps ≤ 5 := by
  cases ps with
  | nil => exact absurd rfl hne
  | cons p rest =>
    obtain ⟨hgw, hgh⟩ := fitBoundsOf_spread p rest
    refine ⟨rfl, rfl, ?_, ?_⟩
    · unfold fitScale
      rw [lt_min_iff, lt_min_iff]
      refine ⟨by norm_num, ?_, ?_⟩
      · exact div_pos (by positivity) (by linarith)
      · exact div_pos (by positivity) (by linarith)
    · calc fitScale w h (p :: rest) ≤ 3/20 := min_le_left _ _
        _ ≤ 5 := by norm_num

/-- Witness for c6_fit_scale at a canvas of 800 × 600 and a single node. -/
theorem c6_fit_scale_witness :
    0 < fitScale 800 600 [((0 : ℚ), (0 : ℚ))] ∧
    fitScale 800 600 [((0 : ℚ), (0 : ℚ))] ≤ 5 :=
  ⟨(c6_fit_scale 800 600 [(0, 0)] (by norm_num) (by norm_num) (by decide)).2.2.1,
   (c6_fit_scale 800 600 [(0, 0)] (by norm_num) (by norm_num) (by decide)).2.2.2⟩

/-- Claim C6 counterexample: with an 800 × 600 canvas and nodes at x = 0 and
x = 100000, the computed scale is 17/2532 ≈ 0.0067 < minZoom = 0.05: the view
fit never clamps the scale into `[minZoom, maxZoom]` from below. -/
theorem c6_scale_below_min_zoom :
    fitViewToContent 800 600 [((0 : ℚ), 0), ((100000 : ℚ), 0)] =
      some (17/2532, 40700/633, 300) ∧
    (17/2532 : ℚ) < 1/20 := by
  refine ⟨?_, by norm_num⟩
  norm_num [fitViewToContent, fitScale, fitBoundsOf, fitBoundsAux, min_def]

lemma innerStep_flag_mono (sqrtF : JNum → JNum) (i j : ℕ) (ns : List ONode) :
    (innerStep sqrtF i j (ns, true)).2 = true := by
  unfold innerStep
  split
  · split <;> rfl
  · rfl

lemma innerStep_false (sqrtF : JNum → JNum) (i j : ℕ) (st : List ONode × Bool)
    (h : (innerStep sqrtF i j st).2 = false) : innerStep sqrtF i j st = st := by
  revert h
  unfold innerStep
  split
  · split
    · intro h; cases h
    · intro _; rfl
  · intro _; rfl

lemma innerLoop_flag_mono (sqrtF : JNum → JNum) (i : ℕ) :
    ∀ (js : List ℕ) (st : List ONode × Bool), st.2 = true →
      (innerLoop sqrtF i js st).2 = true := by
  intro js
  induction js with
  | nil => intro st h; exact h
  | cons j js ih =>
    intro st h
    unfold innerLoop at ih ⊢
    rw [List.foldl_cons]
    rcases st with ⟨ns, b⟩
    have hb : b = true := h
    rw [hb]
    exact ih _ (innerStep_flag_mono sqrtF i j ns)

lemma innerLoop_false (sqrtF : JNum → JNum) (i : ℕ) :
    ∀ (js : List ℕ) (st : List ONode × Bool),
      (innerLoop sqrtF i js st).2 = false → innerLoop sqrtF i js st = st := by
  intro js
  induction js with
  | nil => intro st _; rfl
  | cons j js ih =>
    intro st h
    unfold innerLoop at h ⊢
    rw [List.foldl_cons] at h ⊢
    cases hb : (innerStep sqrtF i j st).2 with
    | true =>
      exfalso
      have := innerLoop_flag_mono sqrtF i js (innerStep sqrtF i j st)
        (by rcases hst : innerStep sqrtF i j st with ⟨ns2, b2⟩
            rw [hst] at hb
            rw [hb])
      unfold innerLoop at this
      rw [this] at h
      cases h
    | false =>
      rw [innerStep_false sqrtF i j st hb] at h ⊢
      exact ih st h

lemma passFold_flag_mono (sqrtF : JNum → JNum) (n : ℕ) :
    ∀ (is : List ℕ) (st : List ONode × Bool), st.2 = true →
      (passFold sqrtF n is st).2 = true := by
  intro is
  induction is with
  | nil => intro st h; exact h
  | cons i is ih =>
    intro st h
    unfold passFold at ih ⊢
    rw [List.foldl_cons]
    exact ih _ (innerLoop_flag_mono sqrtF i _ st h)

lemma passFold_false (sqrtF : JNum → JNum) (n : ℕ) :
    ∀ (is : List ℕ) (st : List ONode × Bool),
      (passFold sqrtF n is st).2 = false → passFold sqrtF n is st = st := by
  intro is
  induction is with
  | nil => intro st _; rfl
  | cons i is ih =>
    intro st h
    unfold passFold at h ⊢
    rw [List.foldl_cons] at h ⊢
    cases hb : (innerLoop sqrtF i ((List.range n).filter (fun j => i < j)) st).2 with
    | true =>
      exfalso
      have := passFold_flag_mono sqrtF n is _ hb
      unfold passFold at this
      rw [this] at h
      cases h
    | false =>
      rw [innerLoop_false sqrtF i _ st hb] at h ⊢
      exact ih st h

lemma onePass_false (sqrtF : JNum → JNum) (ns : List ONode)
    (h : (onePass sqrtF ns).2 = false) : (onePass sqrtF ns).1 = ns := by
  unfold onePass at h ⊢
  rw [passFold_false sqrtF ns.length _ _ h]

/-- Claim C7 (amended): the overlap-resolution loop performs at most 5 full
passes over the node pairs and stops exactly after a pass that moves no node
(such a pass leaves the node list unchanged); but the positions are not always
finite afterwards — two coincident nodes make both coordinates NaN through the
`0/0` push direction, see the counterexample. -/
theorem c7_resolve_overlaps_loop (sqrtF : JNum → JNum) (ns : List ONode) :
    ∃ k, k ≤ 5 ∧ resolveOverlaps sqrtF ns = applyPasses sqrtF k ns ∧
      (k < 5 → (onePass sqrtF (applyPasses sqrtF k ns)).2 = false) := by
  suffices h : ∀ (fuel : ℕ) (ns : List ONode),
      ∃ k, k ≤ fuel ∧ resolveLoop sqrtF fuel ns = applyPasses sqrtF k ns ∧
        (k < fuel → (onePass sqrtF (applyPasses sqrtF k ns)).2 = false) by
    exact h 5 ns
  intro fuel
  induction fuel with
  | zero => intro ns; exact ⟨0, le_refl 0, rfl, by omega⟩
  | succ fuel ih =>
    intro ns
    cases hp : onePass sqrtF ns with
    | mk ns2 moved =>
      cases moved with
      | true =>
        obtain ⟨k, hk, heq, hstop⟩ := ih ns2
        have h1 : applyPasses sqrtF (k + 1) ns = applyPasses sqrtF k ns2 := by
          simp only [applyPasses]
          rw [hp]
        refine ⟨k + 1, by omega, ?_, ?_⟩
        · simp only [resolveLoop]
          rw [hp, h1]
          exact heq
        · intro hk5
          rw [h1]
          exact hstop (by omega)
      | false =>
        have hns : ns2 = ns := by
          have h2 := onePass_false sqrtF ns (by rw [hp])
          rw [hp] at h2
          exact h2
        refine ⟨0, by omega, ?_, ?_⟩
        · simp only [resolveLoop]
          rw [hp]
          simp only [applyPasses]
          exact hns
        · intro _
          simp only [applyPasses]
          rw [hp]

/-- Claim C7 counterexample: starting from two coincident, perfectly finite
nodes, resolveOverlaps divides by a zero distance (`0/0 = NaN`) and both
nodes end with NaN coordinates — organizeInitialPositions does not guarantee
finite positions when nodes coincide during overlap resolution.  (The second
pass sees NaN distances, `NaN < 240` is false, so it moves nothing and the
loop stops.) -/
theorem c7_coincident_nodes_nan :
    resolveOverlaps sqrtOnZero coincidentNodes =
      [⟨JNum.nan, JNum.nan, 0⟩, ⟨JNum.nan, JNum.nan, 0⟩] ∧
    (resolveOverlaps sqrtOnZero coincidentNodes).all
      (fun p => isFiniteNum p.x && isFiniteNum p.y) = false := by
  have h1 : resolveOverlaps sqrtOnZero coincidentNodes =
      [⟨JNum.nan, JNum.nan, 0⟩, ⟨JNum.nan, JNum.nan, 0⟩] := by
    norm_num [resolveOverlaps, resolveLoop, onePass, passFold, innerLoop, innerStep,
      pairPush, jsub, jadd, jneg, jmul, jdiv, jlt, sqrtOnZero, coincidentNodes,
      List.range_succ, List.range_zero, List.filter_cons, List.filter_nil,
      List.foldl_cons, List.foldl_nil]
  refine ⟨h1, ?_⟩
  rw [h1]
  rfl

end EdgeGraphJs
